import Mathlib

/-!
Shallow embedding of the `dependent_bterms` package (SageMath extension for
asymptotic rings with a bounded dependent variable).

Modelling conventions, fixed once for the whole file:

* The rings under consideration are the ones produced by
  `AsymptoticRingWithDependentVariable('n^QQ', 'k', lo, hi)`: a single primary
  variable `n` with monomial growth group `n^QQ`.  A growth-group element
  `n^q` is therefore represented by its exponent `q : ℚ`; multiplication of
  growths is addition of exponents and the growth order is the order on `ℚ`.
* A symbolic coefficient is an element of `SR` built from the dependent
  variable `k`.  We represent the (automatically collected, abs-free) sums of
  monomials `c * k^e` as finite lists of pairs `(e, c) : ℚ × ℚ`, understood up
  to collecting equal exponents and dropping zero coefficients, exactly the
  normalisation the symbolic ring performs on such sums by itself.
* The bounds of the dependent variable are the expansions `n^lo` and `n^hi`
  produced by the ring factory; substituting `k := n^α` into a coefficient
  maps the monomial `c * k^e` to `c * n^(e*α)`.
* `expr.O()` of an exact expansion is the `O` of its summand of maximal
  growth; on the zero expansion the host framework raises
  `NotImplementedOZero`, a `NotImplementedError` subclass.  We represent a
  nonzero `O`-expansion by the exponent of its single summand.
* Python exceptions are modelled with `Except`; the error type `PyErr`
  distinguishes the exception classes that the source can raise.
-/

/-- Exponent of a growth-group element `n^q` of the growth group `n^QQ`. -/
abbrev Growth := ℚ

/-- Multiplication in the growth group `n^QQ`: exponents add. -/
def growthMul (a b : Growth) : Growth := a + b

/-- A symbolic coefficient: a finite sum of monomials `c * k^e` in the
dependent variable `k`, stored as pairs `(e, c)`. -/
abbrev SymCoef := List (ℚ × ℚ)

/-- Total coefficient of `k^e` in a symbolic coefficient (collects the
summands with equal exponent, as the symbolic ring does automatically). -/
def coefAt (c : SymCoef) (e : ℚ) : ℚ :=
  (c.filter (fun p => decide (p.1 = e))).foldr (fun p s => p.2 + s) 0

/-- Remove duplicate exponents from a list of exponents. -/
def dedupExps (l : List ℚ) : List ℚ :=
  l.foldr (fun e acc => if e ∈ acc then acc else e :: acc) []

/-- Exponents that actually occur in a symbolic coefficient (nonzero total
coefficient after collection). -/
def support (c : SymCoef) : List ℚ :=
  (dedupExps (c.map Prod.fst)).filter (fun e => decide (coefAt c e ≠ 0))

/-- `k ∈ coef.variables()`: after automatic collection the expression still
contains a monomial `c * k^e` with `e ≠ 0` and `c ≠ 0`. -/
def mentionsVar (c : SymCoef) : Bool :=
  (support c).any (fun e => decide (e ≠ 0))

/-- Largest element of a list of exponents, if any. -/
def maxExp : List ℚ → Option ℚ
  | [] => none
  | e :: rest =>
      match maxExp rest with
      | none => some e
      | some m => some (max e m)

/-- The dominant exponent of a (substituted) expansion, `none` for the zero
expansion. -/
def domExp (c : SymCoef) : Option ℚ :=
  maxExp (support c)

/-- Substitution `k := n^α` (the bound expansions are the pure powers the
ring factory constructs): the monomial `c * k^e` becomes `c * n^(e*α)`. -/
def substCoef (c : SymCoef) (α : ℚ) : SymCoef :=
  c.map (fun p => (p.1 * α, p.2))

/-- `coef.simplify()` under the assumption `k > 0`.  On the abs-free
collected representation used here, positivity simplification does not change
the represented expression, so it is the identity map.  (In the source it
matters for coefficients containing `abs(k)`, which lie outside this
representation.) -/
def simplifyPos (c : SymCoef) : SymCoef := c

/-- `coef.expand()`: the fully collected sum-of-monomials form. -/
def normalizeCoef (c : SymCoef) : SymCoef :=
  (support c).map (fun e => (e, coefAt c e))

/-- `abs(coefficient)` as stored by the exact upper bound.  For a monomial
`c * k^e` and `k > 0` this is exactly `|c| * k^e`; for a sum of several
monomials the absolute value is not a Laurent polynomial, and the entrywise
magnitude is kept as the representative of the stored bound coefficient. -/
def absCoef (c : SymCoef) : SymCoef :=
  c.map (fun p => (p.1, |p.2|))

/-- Sum of two nonzero single-summand `O`-expansions `O(n^a) + O(n^b)`: the
larger term absorbs the smaller one, leaving the single summand of growth
`max a b`.  (Both operands are necessarily nonzero because `expansion.O()`
raises on the zero expansion before any sum is formed.) -/
def osum (a b : Growth) : Growth := max a b

/-- Asymptotic terms of the three variants used by the package.  An exact
term and a B-term carry a symbolic coefficient (`TermWithCoefficient` in the
host framework); an O-term carries only its growth.  A B-term additionally
stores its validity region `valid_from`, a finite map from variable name to
integer threshold. -/
inductive Term where
  | exact (coefficient : SymCoef) (growth : Growth)
  | oterm (growth : Growth)
  | bterm (coefficient : SymCoef) (growth : Growth) (valid_from : List (String × ℤ))
deriving DecidableEq

/-- The growth of a term. -/
def Term.growth : Term → Growth
  | .exact _ g => g
  | .oterm g => g
  | .bterm _ g _ => g

/-- The coefficient of a term: O-terms are not `TermWithCoefficient`
instances and carry none. -/
def Term.coefficientOpt : Term → Option SymCoef
  | .exact c _ => some c
  | .oterm _ => none
  | .bterm c _ _ => some c

/-- `summand.is_exact()`. -/
def Term.isExact : Term → Bool
  | .exact _ _ => true
  | _ => false

/-- Whether the term is an O-term. -/
def Term.isO : Term → Bool
  | .oterm _ => true
  | _ => false

/-- Whether the term is a B-term. -/
def Term.isB : Term → Bool
  | .bterm _ _ _ => true
  | _ => false

/-- The `valid_from` entries of a term (empty for non-B-terms). -/
def Term.validEntries : Term → List (String × ℤ)
  | .bterm _ _ vf => vf
  | _ => []

/-- The parent term monoid, reduced to the only datum the embedded code
inspects: the optional `variable_bounds` property, holding the pair of bound
exponents `(lo, hi)` for the fixed dependent variable `k`.  Ordinary term
monoids (plain asymptotic rings) have `variable_bounds = none`, which models
the absence of the attribute. -/
structure Parent where
  variable_bounds : Option (ℚ × ℚ)

/-- Python exception classes raised by the embedded code.
`notImplementedOZero` is the `NotImplementedOZero` exception of the host
framework, a subclass of `NotImplementedError`. -/
inductive PyErr where
  | attributeError (attr : String)
  | notImplementedOZero
  | valueErrorUnboundable (summand : Term)
  | keyError (key : String)
  | recursionError
deriving DecidableEq

/-- Whether the exception is of class `ValueError`. -/
def PyErr.isValueError : PyErr → Bool
  | .valueErrorUnboundable _ => true
  | _ => false

/-- `expansion.O()`: the `O`-term of the dominant summand, as the exponent of
its unique summand.  On the zero expansion the host framework raises
`NotImplementedOZero`. -/
def obound (c : SymCoef) : Except PyErr Growth :=
  match domExp c with
  | some g => .ok g
  | none => .error .notImplementedOZero

/-!
### `structures._element_key`

The poset key of an element: if the parent exposes `variable_bounds` and the
element carries a coefficient mentioning `k`, the first component is the
growth of the worst of the two bound substitutions of the positivity
simplified coefficient, multiplied with the element growth; otherwise both
components are the element growth.  The list `[evaluate(...).O() for bound in
[lower, upper]]` calls `expansion.O()` on each substitution, so a vanishing
substitution raises `NotImplementedOZero` before `max` or the unpacking run.
-/
def element_key (p : Parent) (element : Term) : Except PyErr (Growth × Growth) :=
  match p.variable_bounds with
  | none => .ok (element.growth, element.growth)
  | some (lower, upper) =>
      match element.coefficientOpt with
      | none => .ok (element.growth, element.growth)
      | some coef =>
          if mentionsVar coef then
            match domExp (substCoef (simplifyPos coef) lower),
                  domExp (substCoef (simplifyPos coef) upper) with
            | some gl, some gh =>
                .ok (growthMul (max gl gh) element.growth, element.growth)
            | _, _ => .error .notImplementedOZero
          else .ok (element.growth, element.growth)

/-!
### `structures.MonBoundOTerm.__init__`

The stored growth of a freshly constructed O-term: a symbolic coefficient
mentioning `k` is substituted at both bounds, `expansion.O()` is taken of each
substitution (raising `NotImplementedOZero` if a substitution is the zero
expansion, in lower-then-upper order), the two `O`-expansions are summed, and
the growth of the unique summand of that sum multiplies the requested growth.
When both `O()` calls succeed, the sum of two single-summand `O`-expansions
has exactly one summand, so the unpacking
`[coefficient_bound] = list(sum(bounds).summands)` never fails.
-/
def MonBoundOTerm_init_growth (lo hi : ℚ) (coefficient : Option SymCoef)
    (growth : Growth) : Except PyErr Growth :=
  match coefficient with
  | none => .ok growth
  | some coef =>
      if mentionsVar coef then
        match obound (substCoef coef lo), obound (substCoef coef hi) with
        | .ok bl, .ok bh => .ok (growthMul growth (osum bl bh))
        | .error e, _ => .error e
        | _, .error e => .error e
      else .ok growth

/-!
### `structures.MonBoundOTerm.can_absorb`

A boundary term is `term * other` where `term` is the single summand of
`evaluate(other.coefficient, k=bound).O()`, an O-term with growth `n^(e*α)`
(`expansion.O()` raises `NotImplementedOZero` if a substitution vanishes).
The product coerces `other` into the O-term monoid: that conversion keeps the
coefficient (the monoid only strips `valid_from` in `_convert_construction_`),
so it runs through `MonBoundOTerm.__init__` and folds the coefficient growth
into the converted growth; the product of two O-terms then multiplies their
growths and carries no symbolic coefficient.
-/
def mulOTermGrowth (lo hi : ℚ) (boundaryGrowth : Growth) (other : Term) :
    Except PyErr Growth :=
  match MonBoundOTerm_init_growth lo hi other.coefficientOpt other.growth with
  | .ok og => .ok (growthMul boundaryGrowth og)
  | .error e => .error e

/-- `MonBoundOTerm.can_absorb`, with an explicit recursion fuel for the
self-call on the boundary terms (the boundary terms are coefficient-free
O-terms, so one extra unit of fuel always suffices). -/
def MonBoundOTerm_can_absorb_fuel (lo hi : ℚ) (selfGrowth : Growth) :
    Nat → Term → Except PyErr Bool
  | 0, _ => .error .recursionError
  | fuel + 1, other =>
      match Term.coefficientOpt other with
      | some c =>
          if mentionsVar c then
            match domExp (substCoef c lo), domExp (substCoef c hi) with
            | some bl, some bh =>
                match mulOTermGrowth lo hi bl other, mulOTermGrowth lo hi bh other with
                | .ok g1, .ok g2 =>
                    match MonBoundOTerm_can_absorb_fuel lo hi selfGrowth fuel (.oterm g1),
                          MonBoundOTerm_can_absorb_fuel lo hi selfGrowth fuel (.oterm g2) with
                    | .ok b1, .ok b2 => .ok (b1 && b2)
                    | .error e, _ => .error e
                    | _, .error e => .error e
                | .error e, _ => .error e
                | _, .error e => .error e
            | _, _ => .error .notImplementedOZero
          else .ok (decide (selfGrowth ≥ other.growth))
      | none => .ok (decide (selfGrowth ≥ other.growth))

/-- `MonBoundOTerm.can_absorb(other)` for an O-term with stored growth
`selfGrowth` in a monoid with bounds `(lo, hi)`. -/
def MonBoundOTerm_can_absorb (lo hi : ℚ) (selfGrowth : Growth) (other : Term) :
    Except PyErr Bool :=
  MonBoundOTerm_can_absorb_fuel lo hi selfGrowth 2 other

/-!
### `structures.MonBoundBTerm.can_absorb`
-/
def MonBoundBTerm_can_absorb (selfGrowth : Growth) (other : Term) : Bool :=
  decide (selfGrowth = other.growth)

/-!
### `utils.evaluate`

`evaluate(expression, **eval_args)` first reads `expression.variables()`.
Only symbolic expressions carry that interface, so any other argument fails at
this very first step with Python attribute lookup (`AttributeError`).  In this
library the substituted values are the bound expansions `n^α`; an assignment
therefore maps the variable name to the exponent `α`, and the result of the
substitution is the substituted expansion.
-/
inductive PyObj where
  | expr (c : SymCoef)
  | nonExpr (descr : String)
deriving DecidableEq

def evaluate (expression : PyObj) (eval_args : List (String × ℚ)) :
    Except PyErr SymCoef :=
  match expression with
  | .nonExpr _ => .error (.attributeError "variables")
  | .expr c =>
      if mentionsVar c then
        match List.lookup "k" eval_args with
        | some α => .ok (substCoef c α)
        | none => .ok c
      else .ok c

/-!
### `utils.simplify_expansion`

First loop: all non-exact summands pass into the new expansion.  Second loop:
every exact summand first reads `summand.parent().variable_bounds` without any
existence guard; if the coefficient mentions `k` and its expanded form is a
sum (`operator() is add_vararg`, i.e. at least two monomials), the parts are
re-inserted as separate exact summands with the same growth, otherwise the
summand passes unchanged.  Expansion addition is modelled as appending
summands; the eager poset absorption performed by the host ring on `+=` is an
external collaborator and outside the embedded claims.
-/
def simplifyLoop (p : Parent) (acc : List Term) : List Term → Except PyErr (List Term)
  | [] => .ok acc
  | s :: rest =>
      match s with
      | .exact c g =>
          match p.variable_bounds with
          | none => .error (.attributeError "variable_bounds")
          | some _ =>
              if mentionsVar c then
                if 2 ≤ (normalizeCoef c).length then
                  simplifyLoop p
                    (acc ++ (normalizeCoef c).map (fun m => Term.exact [m] g)) rest
                else simplifyLoop p (acc ++ [s]) rest
              else simplifyLoop p (acc ++ [s]) rest
      | _ => simplifyLoop p acc rest

def simplify_expansion (p : Parent) (expr : List Term) : Except PyErr (List Term) :=
  simplifyLoop p (expr.filter (fun s => !(Term.isExact s))) expr

/-!
### `utils.set_bterm_valid_from`

The argument is either a single integer (then the lookup table is empty and
the integer is the default) or a mapping from variable name to floor (then the
default is `ZZ.one()`).  Every `valid_from` entry of every B-term is raised to
the passed bound when it is below it.  The in-place mutation of the summands
is modelled by returning the updated expansion.
-/
inductive ValidFromArg where
  | int (n : ℤ)
  | map (m : List (String × ℤ))
deriving DecidableEq

def setBTermEntry (table : List (String × ℤ)) (default : ℤ) (p : String × ℤ) :
    String × ℤ :=
  let passed := (List.lookup p.1 table).getD default
  if p.2 < passed then (p.1, passed) else p

def setBTermTerm (table : List (String × ℤ)) (default : ℤ) : Term → Term
  | .bterm c g vf => .bterm c g (vf.map (setBTermEntry table default))
  | t => t

def set_bterm_valid_from (asy : List Term) (valid_from : ValidFromArg) : List Term :=
  match valid_from with
  | .int n => asy.map (setBTermTerm [] n)
  | .map m => asy.map (setBTermTerm m 1)

/-- The floor that a given variable effectively receives from the argument:
the mapped value for mapped variables, the default (`1` for a mapping, the
integer itself for an integer argument) for all others. -/
def requestedFloor (valid_from : ValidFromArg) (v : String) : ℤ :=
  match valid_from with
  | .int n => n
  | .map m => (List.lookup v m).getD 1

/-!
### `utils.expansion_upper_bound`

The floors are seeded with `valid_from or coefficient_ring.one()` for every
variable name of the expansion (Python `or`: a zero argument also yields the
default `1`).  Exact summands pass unchanged, B-term summands are replaced by
an exact term with the entrywise-magnitude coefficient and the same growth
while their `valid_from` entries raise the accumulated floors, and any other
summand raises a `ValueError` naming it.  `valid_from[v] = max(valid_from[v],
bd)` looks the key up first, so a floor variable outside the seeded names
raises a `KeyError`.
-/
def seedValue (valid_from : Option ℤ) : ℤ :=
  match valid_from with
  | some q => if q = 0 then 1 else q
  | none => 1

def seedFloors (varNames : List String) (valid_from : Option ℤ) :
    List (String × ℤ) :=
  varNames.map (fun v => (v, seedValue valid_from))

def updateFloor (floors : List (String × ℤ)) (v : String) (bd : ℤ) :
    Except PyErr (List (String × ℤ)) :=
  match List.lookup v floors with
  | some _ => .ok (floors.map (fun p => if p.1 = v then (p.1, max p.2 bd) else p))
  | none => .error (.keyError v)

def applyFloorUpdates (floors : List (String × ℤ)) :
    List (String × ℤ) → Except PyErr (List (String × ℤ))
  | [] => .ok floors
  | p :: rest =>
      match updateFloor floors p.1 p.2 with
      | .ok fs => applyFloorUpdates fs rest
      | .error e => .error e

def upperBoundStep (st : List Term × List (String × ℤ)) (summand : Term) :
    Except PyErr (List Term × List (String × ℤ)) :=
  match summand with
  | .exact _ _ => .ok (st.1 ++ [summand], st.2)
  | .bterm c g vf =>
      match applyFloorUpdates st.2 vf with
      | .ok fs => .ok (st.1 ++ [.exact (absCoef c) g], fs)
      | .error e => .error e
  | .oterm _ => .error (.valueErrorUnboundable summand)

def upperBoundLoop :
    List Term × List (String × ℤ) → List Term →
      Except PyErr (List Term × List (String × ℤ))
  | st, [] => .ok st
  | st, s :: rest =>
      match upperBoundStep st s with
      | .ok st2 => upperBoundLoop st2 rest
      | .error e => .error e

def expansionUpperBoundCore (asy : List Term) (varNames : List String)
    (valid_from : Option ℤ) : Except PyErr (List Term × List (String × ℤ)) :=
  upperBoundLoop ([], seedFloors varNames valid_from) asy

/-- The numeric value of a constant coefficient (no occurrence of `k`). -/
def constValue (c : SymCoef) : Option ℚ :=
  if mentionsVar c then none else some (coefAt c 0)

/-- `n0 ^ g` for a rational exponent, inside `ℚ` only when the exponent is an
integer; other values lie outside the rational model. -/
def ratPow (b : ℚ) (e : ℚ) : Option ℚ :=
  if e.den = 1 then some (b ^ e.num) else none

/-- Value of one exact summand at `n := floor of the primary variable`. -/
def termNumericValue (floors : List (String × ℤ)) : Term → Option ℚ
  | .exact c g =>
      match List.lookup "n" floors, constValue c with
      | some n0, some cv =>
          match ratPow (n0 : ℚ) g with
          | some pw => some (cv * pw)
          | none => none
      | _, _ => none
  | _ => none

def expansionNumericValue (floors : List (String × ℤ)) : List Term → Option ℚ
  | [] => some 0
  | t :: rest =>
      match termNumericValue floors t, expansionNumericValue floors rest with
      | some v, some s => some (v + s)
      | _, _ => none

/-- Result of `expansion_upper_bound`: the symbolic exact expansion, or the
number obtained by substituting the floors; substitution values outside the
rational model (symbolic coefficients, fractional powers) are marked. -/
inductive UBResult where
  | expansion (terms : List Term)
  | number (q : ℚ)
  | numberOutsideModel
deriving DecidableEq

def expansion_upper_bound (asy : List Term) (varNames : List String)
    (numeric : Bool) (valid_from : Option ℤ) : Except PyErr UBResult :=
  match expansionUpperBoundCore asy varNames valid_from with
  | .error e => .error e
  | .ok (bound, floors) =>
      if numeric then
        match expansionNumericValue floors bound with
        | some q => .ok (.number q)
        | none => .ok .numberOutsideModel
      else .ok (.expansion bound)

/-- Per-summand description of the upper bound construction: B-terms become
exact terms with the magnitude coefficient and the same growth, exact terms
pass unchanged. -/
def upperBoundTermSpec : Term → Term
  | .bterm c g _ => .exact (absCoef c) g
  | t => t

/-- One `valid_from` entry raising the accumulated floor of variable `v`. -/
def floorFoldEntry (v : String) (acc : ℤ) (p : String × ℤ) : ℤ :=
  if p.1 = v then max acc p.2 else acc

/-- Floor contribution of one summand to variable `v`. -/
def termFloorFold (v : String) (acc : ℤ) : Term → ℤ
  | .bterm _ _ vf => vf.foldl (floorFoldEntry v) acc
  | _ => acc

/-- The accumulated floors: per variable, the maximum of the seed and all
B-term thresholds for that variable. -/
def specFloors (asy : List Term) (varNames : List String)
    (valid_from : Option ℤ) : List (String × ℤ) :=
  varNames.map (fun v => (v, asy.foldl (termFloorFold v) (seedValue valid_from)))

/-!
## Claim theorems
-/

/-- C1: for every term whose parent monoid exposes `variable_bounds` and
which carries a coefficient mentioning the dependent variable, the poset key
returns `(effective_growth, raw_growth)` with `effective_growth` the growth of
the maximal-growth summand among the two bound substitutions of the
positivity-simplified coefficient, multiplied with the term growth; for every
other term the key returns `(term.growth, term.growth)`. -/
theorem c1_element_key_spec (p : Parent) (element : Term) :
    (∀ lo hi, p.variable_bounds = some (lo, hi) →
      ∀ c, element.coefficientOpt = some c → mentionsVar c = true →
      ∀ gl gh, domExp (substCoef (simplifyPos c) lo) = some gl →
        domExp (substCoef (simplifyPos c) hi) = some gh →
        element_key p element
          = .ok (growthMul (max gl gh) element.growth, element.growth))
    ∧ ((p.variable_bounds = none ∨ element.coefficientOpt = none ∨
        ∃ c, element.coefficientOpt = some c ∧ mentionsVar c = false) →
      element_key p element = .ok (element.growth, element.growth)) := by
  constructor
  · intro lo hi hb c hc hm gl gh hl hh
    simp [element_key, hb, hc, hm, hl, hh]
  · rintro (hb | hc | ⟨c, hc, hm⟩)
    · simp [element_key, hb]
    · cases hb : p.variable_bounds with
      | none => simp [element_key, hb]
      | some lohi => obtain ⟨lo, hi⟩ := lohi; simp [element_key, hb, hc]
    · cases hb : p.variable_bounds with
      | none => simp [element_key, hb]
      | some lohi => obtain ⟨lo, hi⟩ := lohi; simp [element_key, hb, hc, hm]

/-- Witness for C1: in the ring with bounds `[-1/2, 1/2]`, the exact term
`k * n` receives the key `(n^(3/2), n)`. -/
theorem c1_element_key_spec_witness :
    element_key (Parent.mk (some (-1/2, 1/2))) (Term.exact [(1, 1)] 1)
      = .ok (3/2, 1) := by
  have h := (c1_element_key_spec (Parent.mk (some (-1/2, 1/2)))
      (Term.exact [(1, 1)] 1)).1 (-1/2) (1/2) rfl [(1, 1)] rfl
    (by norm_num [mentionsVar, support, dedupExps, coefAt])
    (-1/2) (1/2)
    (by norm_num [domExp, maxExp, support, dedupExps, coefAt, substCoef, simplifyPos])
    (by norm_num [domExp, maxExp, support, dedupExps, coefAt, substCoef, simplifyPos])
  rw [h]
  norm_num [growthMul, max_def, Term.growth]

/-- C2: for every O-term whose construction succeeds with a symbolic
coefficient mentioning `k` (both `expansion.O()` calls on the bound
substitutions succeed, i.e. neither substitution is the zero expansion, on
which the host raises `NotImplementedOZero`), the stored growth equals the
requested growth multiplied by the growth of the single summand of the sum of
the two bound-substituted O-bounds; for every other coefficient the stored
growth equals the requested growth unchanged; in particular, with bounds
`[-1/2, 1/2]`, `O(n*k)` has growth `n^(3/2)` and `O(n/k^2)` has growth
`n^2`. -/
theorem c2_oterm_init_growth_spec (lo hi : ℚ) (coefficient : Option SymCoef)
    (growth : Growth) :
    (∀ c, coefficient = some c → mentionsVar c = true →
      ∀ bl bh, obound (substCoef c lo) = .ok bl → obound (substCoef c hi) = .ok bh →
        MonBoundOTerm_init_growth lo hi coefficient growth
          = .ok (growthMul growth (osum bl bh)))
    ∧ ((coefficient = none ∨ ∃ c, coefficient = some c ∧ mentionsVar c = false) →
      MonBoundOTerm_init_growth lo hi coefficient growth = .ok growth)
    ∧ MonBoundOTerm_init_growth (-1/2) (1/2) (some [(1, 1)]) 1 = .ok (3/2)
    ∧ MonBoundOTerm_init_growth (-1/2) (1/2) (some [(-2, 1)]) 1 = .ok 2 := by
  refine ⟨?_, ?_, ?_, ?_⟩
  · intro c hc hm bl bh hbl hbh
    simp [MonBoundOTerm_init_growth, hc, hm, hbl, hbh]
  · rintro (hc | ⟨c, hc, hm⟩)
    · simp [MonBoundOTerm_init_growth, hc]
    · simp [MonBoundOTerm_init_growth, hc, hm]
  · norm_num [MonBoundOTerm_init_growth, obound, mentionsVar, support, dedupExps,
      coefAt, substCoef, domExp, maxExp, osum, growthMul, max_def]
  · norm_num [MonBoundOTerm_init_growth, obound, mentionsVar, support, dedupExps,
      coefAt, substCoef, domExp, maxExp, osum, growthMul, max_def]

/-- Witness for C2: `O(n*k)` with bounds `[-1/2, 1/2]`, via the general
branch of the theorem. -/
theorem c2_oterm_init_growth_spec_witness :
    MonBoundOTerm_init_growth (-1/2) (1/2) (some [(1, 1)]) 1 = .ok (3/2) := by
  have h := (c2_oterm_init_growth_spec (-1/2) (1/2) (some [(1, 1)]) 1).1
    [(1, 1)] rfl
    (by norm_num [mentionsVar, support, dedupExps, coefAt]) (-1/2) (1/2)
    (by norm_num [obound, domExp, maxExp, support, dedupExps, coefAt, substCoef])
    (by norm_num [obound, domExp, maxExp, support, dedupExps, coefAt, substCoef])
  rw [h]
  norm_num [growthMul, osum, max_def]

/-- The recursive self-call on a coefficient-free O-term reduces to the
growth comparison, independently of the remaining fuel. -/
theorem can_absorb_fuel_oterm (lo hi sg : ℚ) (fuel : Nat) (g : ℚ) :
    MonBoundOTerm_can_absorb_fuel lo hi sg (fuel + 1) (.oterm g)
      = .ok (decide (sg ≥ g)) := by
  simp [MonBoundOTerm_can_absorb_fuel, Term.coefficientOpt, Term.growth]

/-- The initial fuel `2` written as successor form, for unfolding. -/
theorem can_absorb_eq_fuel (lo hi sg : ℚ) (other : Term) :
    MonBoundOTerm_can_absorb lo hi sg other
      = MonBoundOTerm_can_absorb_fuel lo hi sg (1 + 1) other := rfl

/-- C3: for an O-term with stored growth `sg`, absorption of a term whose
coefficient mentions `k` holds exactly when both boundary terms (the single
summand of each bound-substituted O-bound, multiplied with the term) are
absorbed by the recursive call; for any other term, absorption holds exactly
when `sg >= other.growth`. -/
theorem c3_oterm_can_absorb_spec (lo hi sg : ℚ) (other : Term) :
    (∀ c, other.coefficientOpt = some c → mentionsVar c = true →
      ∀ bl bh, domExp (substCoef c lo) = some bl →
        domExp (substCoef c hi) = some bh →
      ∀ g1 g2, mulOTermGrowth lo hi bl other = .ok g1 →
        mulOTermGrowth lo hi bh other = .ok g2 →
        (MonBoundOTerm_can_absorb lo hi sg other = .ok true ↔
          (MonBoundOTerm_can_absorb lo hi sg (.oterm g1) = .ok true ∧
           MonBoundOTerm_can_absorb lo hi sg (.oterm g2) = .ok true)))
    ∧ ((other.coefficientOpt = none ∨
        ∃ c, other.coefficientOpt = some c ∧ mentionsVar c = false) →
      MonBoundOTerm_can_absorb lo hi sg other = .ok (decide (sg ≥ other.growth))) := by
  constructor
  · intro c hc hm bl bh hbl hbh g1 g2 hg1 hg2
    rw [can_absorb_eq_fuel, can_absorb_eq_fuel, can_absorb_eq_fuel,
      can_absorb_fuel_oterm, can_absorb_fuel_oterm]
    rw [MonBoundOTerm_can_absorb_fuel]
    rw [hc]
    simp only [hm, if_true, hbl, hbh, hg1, hg2]
    rw [show (1 : Nat) = 0 + 1 from rfl, can_absorb_fuel_oterm, can_absorb_fuel_oterm]
    simp
  · rintro (hc | ⟨c, hc, hm⟩)
    · rw [can_absorb_eq_fuel, MonBoundOTerm_can_absorb_fuel, hc]
    · rw [can_absorb_eq_fuel, MonBoundOTerm_can_absorb_fuel, hc]
      simp [hm]

/-- Witness for C3: with bounds `[-1/2, 1/2]`, the O-term `O(n^2)` does not
absorb `k^3 * n`, because only the lower boundary term is dominated. -/
theorem c3_oterm_can_absorb_spec_witness :
    (MonBoundOTerm_can_absorb (-1/2) (1/2) 2 (Term.exact [(3, 1)] 1) = .ok true ↔
      (MonBoundOTerm_can_absorb (-1/2) (1/2) 2 (Term.oterm 1) = .ok true ∧
       MonBoundOTerm_can_absorb (-1/2) (1/2) 2 (Term.oterm 4) = .ok true)) :=
  (c3_oterm_can_absorb_spec (-1/2) (1/2) 2 (Term.exact [(3, 1)] 1)).1
    [(3, 1)] rfl
    (by norm_num [mentionsVar, support, dedupExps, coefAt])
    (-3/2) (3/2)
    (by norm_num [domExp, maxExp, support, dedupExps, coefAt, substCoef])
    (by norm_num [domExp, maxExp, support, dedupExps, coefAt, substCoef])
    1 4
    (by norm_num [mulOTermGrowth, MonBoundOTerm_init_growth, obound, Term.coefficientOpt,
      mentionsVar, support, dedupExps, coefAt, substCoef, domExp, maxExp, osum,
      growthMul, max_def, Term.growth])
    (by norm_num [mulOTermGrowth, MonBoundOTerm_init_growth, obound, Term.coefficientOpt,
      mentionsVar, support, dedupExps, coefAt, substCoef, domExp, maxExp, osum,
      growthMul, max_def, Term.growth])

/-- C4: a B-term of the dependent-variable monoid absorbs exactly the terms
of equal growth, and the decision depends on nothing but the growth of the
other term (no coefficient-aware boundary analysis). -/
theorem c4_bterm_can_absorb_spec (sg : ℚ) (other : Term) :
    (MonBoundBTerm_can_absorb sg other = true ↔ sg = other.growth)
    ∧ (∀ o2 : Term, other.growth = o2.growth →
        MonBoundBTerm_can_absorb sg other = MonBoundBTerm_can_absorb sg o2) := by
  constructor
  · simp [MonBoundBTerm_can_absorb]
  · intro o2 h
    simp [MonBoundBTerm_can_absorb, h]

/-- Witness for C4: the decision for a B-term of growth `n` is the same on
the exact term `k * n` and on the coefficient-free O-term of growth `n`. -/
theorem c4_bterm_can_absorb_spec_witness :
    MonBoundBTerm_can_absorb 1 (Term.exact [(1, 1)] 1)
      = MonBoundBTerm_can_absorb 1 (Term.oterm 1) :=
  (c4_bterm_can_absorb_spec 1 (Term.exact [(1, 1)] 1)).2 (Term.oterm 1) rfl

/-- One updated `valid_from` entry is the maximum of the current floor and
the passed bound. -/
theorem setBTermEntry_eq_max (table : List (String × ℤ)) (default : ℤ)
    (p : String × ℤ) :
    setBTermEntry table default p
      = (p.1, max p.2 ((List.lookup p.1 table).getD default)) := by
  simp only [setBTermEntry]
  split_ifs with h
  · rw [max_eq_right h.le]
  · rw [max_eq_left (not_lt.mp h)]

/-- Per-term description of the floor update actually performed: every entry
of a B-term is raised to the maximum of its current value and the floor the
argument effectively requests for that variable. -/
def setValidSpecTerm (valid_from : ValidFromArg) : Term → Term
  | .bterm c g vf =>
      .bterm c g (vf.map (fun p => (p.1, max p.2 (requestedFloor valid_from p.1))))
  | t => t

/-- Counterexample to C5 as stated: a mapping for the unrelated variable `z`
does not leave an existing floor `0` of the variable `n` unchanged — the
default floor `1` is applied to every variable absent from the mapping. -/
theorem c5_set_bterm_valid_from_counterexample :
    set_bterm_valid_from [Term.bterm [(0, 1)] 0 [("n", 0)]]
        (ValidFromArg.map [("z", 42)])
      = [Term.bterm [(0, 1)] 0 [("n", 1)]] ∧ (1 : ℤ) ≠ 0 := by
  exact ⟨rfl, by decide⟩

/-- C5 (amended): `set_bterm_valid_from` raises every stored floor of every
B-term to `max(current, requested)`, where the requested floor is the mapped
value for variables in a mapping, the integer itself for an integer argument,
and the default `1` for variables absent from a mapping (so an existing floor
of `5` stays `5` under the mapping `z -> 42`, but floors below `1` are raised
to `1`); non-B-terms are unchanged and the (in-place updated) expansion is
returned. -/
theorem c5_set_bterm_valid_from_spec (asy : List Term) (valid_from : ValidFromArg) :
    set_bterm_valid_from asy valid_from = asy.map (setValidSpecTerm valid_from) := by
  cases valid_from with
  | int n =>
      simp only [set_bterm_valid_from]
      induction asy with
      | nil => rfl
      | cons t rest ih =>
          simp only [List.map_cons, ih]
          cases t with
          | exact c g => rfl
          | oterm g => rfl
          | bterm c g vf =>
              simp [setBTermTerm, setValidSpecTerm, setBTermEntry_eq_max,
                requestedFloor]
  | map m =>
      simp only [set_bterm_valid_from]
      induction asy with
      | nil => rfl
      | cons t rest ih =>
          simp only [List.map_cons, ih]
          cases t with
          | exact c g => rfl
          | oterm g => rfl
          | bterm c g vf =>
              simp [setBTermTerm, setValidSpecTerm, setBTermEntry_eq_max,
                requestedFloor]

/-- Composition of two uniform integer floor updates with `f1 <= f2` on a
single `valid_from` entry collapses to the larger update. -/
theorem setBTermEntry_comp (f1 f2 : ℤ) (h : f1 ≤ f2) (p : String × ℤ) :
    setBTermEntry [] f2 (setBTermEntry [] f1 p) = setBTermEntry [] f2 p := by
  simp only [setBTermEntry, List.lookup_nil, Option.getD_none]
  obtain ⟨v, b⟩ := p
  simp only [Prod.ext_iff]
  split_ifs <;> simp_all <;> omega

/-- Composition of the two updates on a whole term. -/
theorem setBTermTerm_comp (f1 f2 : ℤ) (h : f1 ≤ f2) (t : Term) :
    setBTermTerm [] f2 (setBTermTerm [] f1 t) = setBTermTerm [] f2 t := by
  cases t with
  | exact c g => rfl
  | oterm g => rfl
  | bterm c g vf =>
      simp only [setBTermTerm, Term.bterm.injEq, List.map_map, true_and]
      induction vf with
      | nil => rfl
      | cons p rest ih =>
          simp only [List.map_cons, Function.comp_apply, ih]
          rw [setBTermEntry_comp f1 f2 h p]

/-- C6: for floors `f1 <= f2`, updating with `f1` and then with `f2` yields
the same expansion as updating with `f2` alone (the ratchet is idempotent
from above). -/
theorem c6_valid_from_ratchet (asy : List Term) (f1 f2 : ℤ) (h : f1 ≤ f2) :
    set_bterm_valid_from (set_bterm_valid_from asy (.int f1)) (.int f2)
      = set_bterm_valid_from asy (.int f2) := by
  simp only [set_bterm_valid_from]
  induction asy with
  | nil => rfl
  | cons t rest ih =>
      simp only [List.map_cons, ih]
      rw [setBTermTerm_comp f1 f2 h t]

/-- Witness for C6 at a concrete expansion and floors `3 <= 5`. -/
theorem c6_valid_from_ratchet_witness :
    set_bterm_valid_from
        (set_bterm_valid_from [Term.bterm [(0, 1)] 0 [("n", 4)]] (.int 3)) (.int 5)
      = set_bterm_valid_from [Term.bterm [(0, 1)] 0 [("n", 4)]] (.int 5) :=
  c6_valid_from_ratchet [Term.bterm [(0, 1)] 0 [("n", 4)]] 3 5 (by decide)

theorem lookup_map_self (names : List String) (f : String → ℤ) (v : String)
    (hv : v ∈ names) :
    List.lookup v (names.map (fun u => (u, f u))) = some (f v) := by
  induction names with
  | nil => cases hv
  | cons u rest ih =>
      simp only [List.map_cons, List.lookup]
      by_cases h : v = u
      · subst h; simp
      · have hb : (v == u) = false := by simp [h]
        rw [hb]
        exact ih (by rcases List.mem_cons.mp hv with h2 | h2; exact absurd h2 h; exact h2)

theorem updateFloor_map_self (names : List String) (f : String → ℤ) (v : String)
    (bd : ℤ) (hv : v ∈ names) :
    updateFloor (names.map (fun u => (u, f u))) v bd
      = .ok (names.map (fun u => (u, if u = v then max (f u) bd else f u))) := by
  rw [updateFloor, lookup_map_self names f v hv]
  dsimp only
  congr 1
  rw [List.map_map]
  apply List.map_congr_left
  intro a _
  by_cases h : a = v <;> simp [h]

theorem applyFloorUpdates_map_self (vf : List (String × ℤ)) (names : List String)
    (f : String → ℤ) (hv : ∀ p ∈ vf, p.1 ∈ names) :
    applyFloorUpdates (names.map (fun u => (u, f u))) vf
      = .ok (names.map (fun u => (u, vf.foldl (floorFoldEntry u) (f u)))) := by
  revert hv
  induction vf generalizing f with
  | nil => intro hv; simp [applyFloorUpdates]
  | cons p rest ih =>
      intro hv
      rw [applyFloorUpdates, updateFloor_map_self names f p.1 p.2 (hv p (by simp))]
      dsimp only
      rw [ih (fun u => if u = p.1 then max (f u) p.2 else f u)
        (fun q hq => hv q (by simp [hq]))]
      congr 1
      apply List.map_congr_left
      intro u _
      simp only [List.foldl_cons, floorFoldEntry]
      by_cases h : p.1 = u
      · simp [h]
      · simp [h, Ne.symm h]

theorem upperBoundLoop_spec (asy : List Term) (acc : List Term)
    (names : List String) (f : String → ℤ)
    (hkinds : ∀ t ∈ asy, t.isExact = true ∨ t.isB = true)
    (hvars : ∀ t ∈ asy, ∀ p ∈ t.validEntries, p.1 ∈ names) :
    upperBoundLoop (acc, names.map (fun u => (u, f u))) asy
      = .ok (acc ++ asy.map upperBoundTermSpec,
             names.map (fun u => (u, asy.foldl (termFloorFold u) (f u)))) := by
  revert hkinds hvars
  induction asy generalizing acc f with
  | nil => intro _ _; simp [upperBoundLoop]
  | cons t rest ih =>
      intro hkinds hvars
      cases t with
      | exact c g =>
          rw [upperBoundLoop]
          dsimp only [upperBoundStep]
          rw [ih (acc ++ [Term.exact c g]) f
            (fun t ht => hkinds t (by simp [ht]))
            (fun t ht => hvars t (by simp [ht]))]
          simp [upperBoundTermSpec, termFloorFold]
      | oterm g =>
          have h := hkinds (Term.oterm g) (List.mem_cons_self _ _)
          simp [Term.isExact, Term.isB] at h
      | bterm c g vf =>
          rw [upperBoundLoop]
          dsimp only [upperBoundStep]
          rw [applyFloorUpdates_map_self vf names f
            (fun p hp => hvars (Term.bterm c g vf) (List.mem_cons_self _ _) p hp)]
          dsimp only
          rw [ih (acc ++ [Term.exact (absCoef c) g])
            (fun u => vf.foldl (floorFoldEntry u) (f u))
            (fun t ht => hkinds t (by simp [ht]))
            (fun t ht => hvars t (by simp [ht]))]
          simp [upperBoundTermSpec, termFloorFold]

theorem c7_expansion_upper_bound_spec (asy : List Term) (varNames : List String)
    (valid_from : Option ℤ)
    (hkinds : ∀ t ∈ asy, t.isExact = true ∨ t.isB = true)
    (hvars : ∀ t ∈ asy, ∀ p ∈ t.validEntries, p.1 ∈ varNames) :
    expansionUpperBoundCore asy varNames valid_from
      = .ok (asy.map upperBoundTermSpec, specFloors asy varNames valid_from)
    ∧ expansion_upper_bound asy varNames false valid_from
      = .ok (.expansion (asy.map upperBoundTermSpec))
    ∧ expansion_upper_bound [Term.exact [(0, 1)] 1, Term.bterm [(0, 1)] (-2) [("n", 10)]]
        ["n"] true none = .ok (.number (1001/100)) := by
  have hcore : expansionUpperBoundCore asy varNames valid_from
      = .ok (asy.map upperBoundTermSpec, specFloors asy varNames valid_from) := by
    rw [expansionUpperBoundCore, seedFloors]
    rw [upperBoundLoop_spec asy [] varNames (fun _ => seedValue valid_from) hkinds hvars]
    simp [specFloors]
  refine ⟨hcore, ?_, ?_⟩
  · rw [expansion_upper_bound, hcore]
    simp
  · norm_num [expansion_upper_bound, expansionUpperBoundCore, seedFloors, seedValue,
      upperBoundLoop, upperBoundStep, applyFloorUpdates, updateFloor, absCoef,
      expansionNumericValue, termNumericValue, constValue, mentionsVar, support,
      dedupExps, coefAt, ratPow, List.lookup]

theorem upperBoundLoop_oterm_error (asy : List Term) (acc : List Term)
    (names : List String) (f : String → ℤ)
    (hvars : ∀ t ∈ asy, ∀ p ∈ t.validEntries, p.1 ∈ names)
    (hO : ∃ t ∈ asy, t.isO = true) :
    ∃ u, upperBoundLoop (acc, names.map (fun v => (v, f v))) asy
        = .error (.valueErrorUnboundable u) ∧ u ∈ asy ∧ u.isO = true := by
  revert hvars hO
  induction asy generalizing acc f with
  | nil =>
      intro _ hO
      simp at hO
  | cons t rest ih =>
      intro hvars hO
      cases t with
      | oterm g =>
          refine ⟨Term.oterm g, ?_, List.mem_cons_self _ _, rfl⟩
          rw [upperBoundLoop]
          dsimp only [upperBoundStep]
      | exact c g =>
          obtain ⟨u0, hu0, hO0⟩ := hO
          have hu0r : u0 ∈ rest := by
            rcases List.mem_cons.mp hu0 with h | h
            · subst h; simp [Term.isO] at hO0
            · exact h
          obtain ⟨u, hloop, hmem, hOu⟩ := ih (acc ++ [Term.exact c g]) f
            (fun t ht => hvars t (by simp [ht])) ⟨u0, hu0r, hO0⟩
          refine ⟨u, ?_, by simp [hmem], hOu⟩
          rw [upperBoundLoop]
          dsimp only [upperBoundStep]
          exact hloop
      | bterm c g vf =>
          obtain ⟨u0, hu0, hO0⟩ := hO
          have hu0r : u0 ∈ rest := by
            rcases List.mem_cons.mp hu0 with h | h
            · subst h; simp [Term.isO] at hO0
            · exact h
          obtain ⟨u, hloop, hmem, hOu⟩ := ih (acc ++ [Term.exact (absCoef c) g])
            (fun u => vf.foldl (floorFoldEntry u) (f u))
            (fun t ht => hvars t (by simp [ht])) ⟨u0, hu0r, hO0⟩
          refine ⟨u, ?_, by simp [hmem], hOu⟩
          rw [upperBoundLoop]
          dsimp only [upperBoundStep]
          rw [applyFloorUpdates_map_self vf names f
            (fun p hp => hvars (Term.bterm c g vf) (List.mem_cons_self _ _) p hp)]
          dsimp only
          exact hloop

theorem c8_unboundable_error (asy : List Term) (varNames : List String)
    (numeric : Bool) (valid_from : Option ℤ)
    (hvars : ∀ t ∈ asy, ∀ p ∈ t.validEntries, p.1 ∈ varNames)
    (hO : ∃ t ∈ asy, t.isO = true) :
    ∃ u, expansion_upper_bound asy varNames numeric valid_from
        = .error (.valueErrorUnboundable u)
      ∧ u ∈ asy ∧ u.isO = true
      ∧ PyErr.isValueError (.valueErrorUnboundable u) = true := by
  obtain ⟨u, hloop, hmem, hOu⟩ := upperBoundLoop_oterm_error asy [] varNames
    (fun _ => seedValue valid_from) hvars hO
  refine ⟨u, ?_, hmem, hOu, rfl⟩
  rw [expansion_upper_bound, expansionUpperBoundCore, seedFloors]
  rw [hloop]

/-- Witness for C7: the scenario expansion `n - B(1/n^2, valid_from=10)`, via
the general branch of the theorem. -/
theorem c7_expansion_upper_bound_spec_witness :
    expansionUpperBoundCore
        [Term.exact [(0, 1)] 1, Term.bterm [(0, 1)] (-2) [("n", 10)]] ["n"] none
      = .ok ([Term.exact [(0, 1)] 1, Term.exact [(0, 1)] (-2)],
          specFloors [Term.exact [(0, 1)] 1, Term.bterm [(0, 1)] (-2) [("n", 10)]]
            ["n"] none) := by
  have h := (c7_expansion_upper_bound_spec
      [Term.exact [(0, 1)] 1, Term.bterm [(0, 1)] (-2) [("n", 10)]] ["n"] none
      (by decide) (by decide)).1
  rw [h]
  norm_num [upperBoundTermSpec, absCoef]

/-- Witness for C8: an expansion holding a single O-term. -/
theorem c8_unboundable_error_witness :
    ∃ u, expansion_upper_bound [Term.oterm 1] ["n"] false none
        = .error (.valueErrorUnboundable u)
      ∧ u ∈ [Term.oterm 1] ∧ u.isO = true
      ∧ PyErr.isValueError (.valueErrorUnboundable u) = true :=
  c8_unboundable_error [Term.oterm 1] ["n"] false none (by decide)
    ⟨Term.oterm 1, List.mem_cons_self _ _, rfl⟩

/-- Counterexample to C9 as stated: the non-expression argument `None` makes
`evaluate` fail at the `expression.variables()` lookup with an
`AttributeError`, which is not a `ValueError`-class error. -/
theorem c9_evaluate_counterexample :
    evaluate (PyObj.nonExpr "None") [] = .error (.attributeError "variables")
      ∧ PyErr.isValueError (.attributeError "variables") = false :=
  ⟨rfl, rfl⟩

/-- C9 (amended): for every input that is not a valid symbolic expression,
`evaluate` fails, but with an `AttributeError` raised by the attribute lookup
`expression.variables()`, not with a `ValueError`-class error. -/
theorem c9_evaluate_invalid_input (d : String) (eval_args : List (String × ℚ)) :
    evaluate (.nonExpr d) eval_args = .error (.attributeError "variables")
      ∧ PyErr.isValueError (.attributeError "variables") = false :=
  ⟨rfl, rfl⟩

/-- The second loop of `simplify_expansion` fails at the first exact summand
when the parent does not expose `variable_bounds`. -/
theorem simplifyLoop_no_bounds (p : Parent) (hp : p.variable_bounds = none) :
    ∀ (l acc : List Term), (∃ t ∈ l, t.isExact = true) →
      simplifyLoop p acc l = .error (.attributeError "variable_bounds") := by
  intro l
  induction l with
  | nil =>
      intro acc h
      simp at h
  | cons t rest ih =>
      intro acc h
      cases t with
      | exact c g => simp [simplifyLoop, hp]
      | oterm g =>
          obtain ⟨u, hu, hE⟩ := h
          have hur : u ∈ rest := by
            rcases List.mem_cons.mp hu with h2 | h2
            · subst h2; simp [Term.isExact] at hE
            · exact h2
          simpa [simplifyLoop] using ih acc ⟨u, hur, hE⟩
      | bterm c g vf =>
          obtain ⟨u, hu, hE⟩ := h
          have hur : u ∈ rest := by
            rcases List.mem_cons.mp hu with h2 | h2
            · subst h2; simp [Term.isExact] at hE
            · exact h2
          simpa [simplifyLoop] using ih acc ⟨u, hur, hE⟩

/-- C10: `simplify_expansion` reads `variable_bounds` of the parent of every
exact summand it processes without an existence guard, so on an expansion of
an ordinary asymptotic ring (no `variable_bounds`) with an exact summand it
fails with an attribute-lookup error, not with a `ValueError`. -/
theorem c10_simplify_expansion_attribute_error (p : Parent) (expr : List Term)
    (hp : p.variable_bounds = none) (hex : ∃ t ∈ expr, t.isExact = true) :
    simplify_expansion p expr = .error (.attributeError "variable_bounds")
      ∧ PyErr.isValueError (.attributeError "variable_bounds") = false := by
  refine ⟨?_, rfl⟩
  rw [simplify_expansion]
  exact simplifyLoop_no_bounds p hp expr _ hex

/-- Witness for C10: a one-summand exact expansion in a ring without bounds. -/
theorem c10_simplify_expansion_attribute_error_witness :
    simplify_expansion (Parent.mk none) [Term.exact [(0, 1)] 0]
        = .error (.attributeError "variable_bounds")
      ∧ PyErr.isValueError (.attributeError "variable_bounds") = false :=
  c10_simplify_expansion_attribute_error (Parent.mk none) [Term.exact [(0, 1)] 0]
    rfl ⟨Term.exact [(0, 1)] 0, List.mem_cons_self _ _, rfl⟩
